import Mathlib

set_option maxRecDepth 8000

/-!
Verification development for the tidb_vector_python repository fragment.

Part 1 models the column-definition parser
(function extract_info_from_column_definition of
tidb_vector/integrations/utils.py).  Only its unit test is present in the
repository fragment, so the function itself is modelled from the design
spec, section 4.1: a scan for a parenthesized digit group gives the
dimension; a scan for a case-insensitive COMMENT keyword followed by a
quoted string gives the comment body; inside the body an
index-specification form of shape type(distance=metric) is searched
first, and a bare form distance=metric is the fallback.

Part 2 embeds TidbRM.forward from examples/dspy-demo/utils.py: results
from the client query are accumulated into a dict keyed by document
(later entries overwrite earlier scores, key order is first-insertion
order), the dict items are stably sorted by score in descending order,
and the documents of the sorted items are returned.  The k argument is
resolved by the Python expression k or self.top_k, which treats both
None and 0 as unset.
-/

/-! ## Part 1: the column definition parser, modelled from the spec -/

/-- Single-quote character, written by code point to keep the source plain. -/
def squote : Char := Char.ofNat 39

/-- Double-quote character, written by code point. -/
def dquote : Char := Char.ofNat 34

/-- A comment delimiter is a single or a double quote. -/
def isQuote (c : Char) : Bool := c = squote || c = dquote

/-- Whitespace between the COMMENT keyword and the quoted string. -/
def isWS (c : Char) : Bool :=
  c = ' ' || c = Char.ofNat 9 || c = Char.ofNat 10 || c = Char.ofNat 13

/-- Word characters, as used by the index-type and metric tokens. -/
def isWordChar (c : Char) : Bool := c.isAlphanum || c = '_'

/-- The COMMENT keyword, lowercased. -/
def commentKW : List Char := "comment".toList

/-- The literal fragment that introduces a metric. -/
def distanceLit : List Char := "distance=".toList

/-- Decimal value of a digit string. -/
def digitsToNat (l : List Char) : Nat :=
  l.foldl (fun a c => 10 * a + (c.toNat - 48)) 0

/-- Try to read a parenthesized digit group at the head of the input:
an opening parenthesis, one or more digits, a closing parenthesis.
Returns the digits. -/
def dimAtHead (l : List Char) : Option (List Char) :=
  match l with
  | [] => none
  | c :: rest =>
    if c = '(' ∧ (rest.dropWhile Char.isDigit).head? = some ')' ∧
        rest.takeWhile Char.isDigit ≠ [] then
      some (rest.takeWhile Char.isDigit)
    else none

/-- Case-insensitive keyword match at the head; returns the remainder. -/
def ciTake : List Char → List Char → Option (List Char)
  | [], l => some l
  | _ :: _, [] => none
  | k :: ks, c :: cs => if c.toLower = k.toLower then ciTake ks cs else none

/-- Exact literal match at the head; returns the remainder. -/
def litTake : List Char → List Char → Option (List Char)
  | [], l => some l
  | _ :: _, [] => none
  | k :: ks, c :: cs => if c = k then litTake ks cs else none

/-- Try to read a COMMENT clause at the head of the input: the keyword
(case-insensitive), at least one whitespace character, a quote, and a
closing occurrence of the same quote.  Returns the comment body, the
characters strictly between the quote and its first closing occurrence. -/
def commentAtHead (l : List Char) : Option (List Char) :=
  match ciTake commentKW l with
  | none => none
  | some r =>
    match r with
    | [] => none
    | c :: cs =>
      if isWS c then
        match cs.dropWhile isWS with
        | [] => none
        | q :: body0 =>
          if isQuote q ∧ q ∈ body0 then
            some (body0.takeWhile (fun d => decide (d ≠ q)))
          else none
      else none

/-- Try to read an index-specification form at the head of the comment
body: a nonempty word (the index type), an opening parenthesis, the
literal distance=, a nonempty word (the metric), a closing parenthesis.
Returns the metric. -/
def indexedAtHead (l : List Char) : Option (List Char) :=
  if l.takeWhile isWordChar ≠ [] ∧ (l.dropWhile isWordChar).head? = some '(' then
    match litTake distanceLit (l.dropWhile isWordChar).tail with
    | none => none
    | some r2 =>
      if r2.takeWhile isWordChar ≠ [] ∧
          (r2.dropWhile isWordChar).head? = some ')' then
        some (r2.takeWhile isWordChar)
      else none
  else none

/-- Try to read the bare form at the head of the comment body: the
literal distance= followed by a nonempty word.  Returns the metric. -/
def bareAtHead (l : List Char) : Option (List Char) :=
  match litTake distanceLit l with
  | none => none
  | some r =>
    if r.takeWhile isWordChar = [] then none else some (r.takeWhile isWordChar)

/-- Leftmost-match search: try the matcher at every suffix, left to
right, and return the first hit.  This is the embedding of an unanchored
regular-expression search. -/
def scanFor (f : List Char → Option (List Char)) : List Char → Option (List Char)
  | [] => none
  | c :: cs =>
    match f (c :: cs) with
    | some x => some x
    | none => scanFor f cs

/-- The dimension field alone: leftmost parenthesized digit group. -/
def extractDimension (s : List Char) : Option Nat :=
  match scanFor dimAtHead s with
  | none => none
  | some ds => some (digitsToNat ds)

/-- The distance-metric field alone: find the comment body, then the
index-specification form first, the bare form as fallback. -/
def extractDistance (s : List Char) : Option (List Char) :=
  match scanFor commentAtHead s with
  | none => none
  | some body =>
    match scanFor indexedAtHead body with
    | some m => some m
    | none => scanFor bareAtHead body

/-- Modelled from the spec: the function
extract_info_from_column_definition of tidb_vector/integrations/utils.py
is absent from the repository fragment (only its unit test is present),
so this definition follows the algorithm of spec section 4.1 directly:
step 1 searches the whole input for a parenthesized digit group and
parses it as the dimension; step 2 searches for a COMMENT keyword
(case-insensitive) followed by a single- or double-quoted string; step 3
searches the comment body for type(distance=metric) first and for the
bare distance=metric as a fallback.  Absence at any step yields none for
the corresponding field. -/
def extract_info_from_column_definition (s : List Char) :
    Option Nat × Option (List Char) :=
  (match scanFor dimAtHead s with
   | none => none
   | some ds => some (digitsToNat ds),
   match scanFor commentAtHead s with
   | none => none
   | some body =>
     match scanFor indexedAtHead body with
     | some m => some m
     | none => scanFor bareAtHead body)

/-- The input holds a parenthesized group of one or more digits. -/
def HasDigitGroup (s : List Char) : Prop :=
  ∃ pre ds post, s = pre ++ '(' :: (ds ++ ')' :: post) ∧ ds ≠ [] ∧
    ∀ c ∈ ds, c.isDigit = true

/-- The input holds a parenthesized digit group of value n. -/
def DigitGroupValued (s : List Char) (n : Nat) : Prop :=
  ∃ pre ds post, s = pre ++ '(' :: (ds ++ ')' :: post) ∧ ds ≠ [] ∧
    (∀ c ∈ ds, c.isDigit = true) ∧ digitsToNat ds = n

/-- The input holds a COMMENT clause: the keyword case-insensitively,
nonempty whitespace, and a quoted string. -/
def HasCommentClause (s : List Char) : Prop :=
  ∃ pre kw ws q body post,
    s = pre ++ (kw ++ (ws ++ (q :: (body ++ q :: post)))) ∧
    kw.map Char.toLower = commentKW.map Char.toLower ∧
    ws ≠ [] ∧ (∀ c ∈ ws, isWS c = true) ∧ isQuote q = true

/-- The comment body holds an index-specification fragment whose metric
is m: word(distance=m) with m a nonempty word. -/
def IndexedOccur (body m : List Char) : Prop :=
  ∃ pre w post,
    body = pre ++ (w ++ '(' :: (distanceLit ++ (m ++ ')' :: post))) ∧
    w ≠ [] ∧ (∀ c ∈ w, isWordChar c = true) ∧ m ≠ [] ∧
    ∀ c ∈ m, isWordChar c = true

/-- The comment body holds an index-specification fragment. -/
def HasIndexedForm (body : List Char) : Prop := ∃ m, IndexedOccur body m

/-- The comment body holds the bare fragment distance=m, m a nonempty word. -/
def BareOccur (body m : List Char) : Prop :=
  ∃ pre post, body = pre ++ (distanceLit ++ (m ++ post)) ∧ m ≠ [] ∧
    ∀ c ∈ m, isWordChar c = true

/-- The comment body holds a bare distance fragment. -/
def HasBareForm (body : List Char) : Prop := ∃ m, BareOccur body m

/-! ## Part 2: the TidbRM retrieval module of examples/dspy-demo/utils.py

A query result carries a document text and a distance score.  Distances
are numeric scores only compared, never computed with, so they are
embedded as rationals.  The metadata field of a result is wrapped into a
dotdict by forward and otherwise unused, so it is omitted. -/

structure QueryResult where
  document : String
  distance : Rat

/-- One assignment to a Python dict: an existing key keeps its position
and gets the new value, a new key is appended at the end. -/
def dictInsert (d : List (String × Rat)) (k : String) (v : Rat) :
    List (String × Rat) :=
  match d with
  | [] => [(k, v)]
  | (k', v') :: rest =>
    if k' = k then (k', v) :: rest else (k', v') :: dictInsert rest k v

/-- The passages_scores dict of TidbRM.forward: one assignment per
query result, in order. -/
def buildDict (res : List QueryResult) : List (String × Rat) :=
  res.foldl (fun d r => dictInsert d r.document r.distance) []

/-- The comparison used by sorted with key score and reverse true:
an item goes before another when its score is at least as large. -/
def scoreGe (a b : String × Rat) : Prop := b.2 ≤ a.2

instance : DecidableRel scoreGe :=
  fun a b => inferInstanceAs (Decidable (b.2 ≤ a.2))

instance : IsTotal (String × Rat) scoreGe := ⟨fun a b => le_total b.2 a.2⟩

instance : IsTrans (String × Rat) scoreGe := ⟨fun _ _ _ h1 h2 => le_trans h2 h1⟩

/-- The sorted_passages list of TidbRM.forward: the dict items stably
sorted by score in descending order.  Python sorted is a stable sort;
insertion sort is the standard stable reference sort. -/
def sortedEntries (res : List QueryResult) : List (String × Rat) :=
  List.insertionSort scoreGe (buildDict res)

/-- The passages of the returned Prediction: the document of each
sorted item, in sorted order. -/
def forwardPassages (res : List QueryResult) : List String :=
  (sortedEntries res).map (fun p => p.1)

/-- Lookup of a key in the association list modelling the dict. -/
def lookupDoc (k : String) : List (String × Rat) → Option Rat
  | [] => none
  | (k', v) :: rest => if k' = k then some v else lookupDoc k rest

/-- The retrieval module state: the stored top_k from the constructor. -/
structure TidbRM where
  top_k : Int

/-- Default of the constructor argument k. -/
def defaultTopK : Int := 3

/-- The constructor applied with the default k. -/
def TidbRM.mkDefault : TidbRM := ⟨defaultTopK⟩

/-- The Python expression k or self.top_k: None and 0 are both falsy,
so either one falls back to the stored top_k. -/
def resolveK (k : Option Int) (topK : Int) : Int :=
  match k with
  | none => topK
  | some v => if v = 0 then topK else v

/-- TidbRM.forward: embedding composes the embedding function and the
client query into one opaque clientQuery argument mapping the resolved
k to the list of scored results, then post-processes exactly as the
source does: dict accumulation, stable descending sort by score, and
projection to the document texts. -/
def TidbRM.forward (rm : TidbRM) (clientQuery : Int → List QueryResult)
    (k : Option Int) : List String :=
  forwardPassages (clientQuery (resolveK k rm.top_k))

/-! ## Concrete sample inputs used by witness theorems -/

def sampleMalformed : List Char := "VECTOR<FLOAT>".toList

def sampleDim : List Char := "v(7)".toList

def sampleNoComment : List Char := "abc".toList

def sampleIndexed : List Char := "COMMENT \x22hnsw(distance=cosine)\x22".toList

def bodyIndexed : List Char := "hnsw(distance=cosine)".toList

def sampleBare : List Char := "COMMENT \x22distance=l2\x22".toList

def bodyBare : List Char := "distance=l2".toList

def sampleBoth : List Char := "COMMENT \x22ab(distance=l2)\x22".toList

def bodyBoth : List Char := "ab(distance=l2)".toList

def samplePlain : List Char := "a".toList

/-! ## Helper lemmas for the parser -/

theorem takeWhile_all_append (p : Char → Bool) (ds : List Char) (b : Char)
    (post : List Char) (hds : ∀ c ∈ ds, p c = true) (hb : p b = false) :
    (ds ++ b :: post).takeWhile p = ds ∧ (ds ++ b :: post).dropWhile p = b :: post := by
  induction ds with
  | nil => simp [List.takeWhile_cons, List.dropWhile_cons, hb]
  | cons d ds ih =>
    have hd : p d = true := hds d (by simp)
    have ih' := ih (fun c hc => hds c (by simp [hc]))
    simp [List.takeWhile_cons, List.dropWhile_cons, hd, ih'.1, ih'.2]

theorem litTake_sound (ks : List Char) :
    ∀ l r, litTake ks l = some r → l = ks ++ r := by
  induction ks with
  | nil => intro l r h; simpa [litTake] using h
  | cons k ks ih =>
    intro l r h
    cases l with
    | nil => simp [litTake] at h
    | cons c cs =>
      by_cases hc : c = k
      · simp [litTake, hc] at h
        simpa [hc] using congrArg (k :: ·) (ih cs r h)
      · simp [litTake, hc] at h

theorem litTake_complete (ks : List Char) :
    ∀ r, litTake ks (ks ++ r) = some r := by
  induction ks with
  | nil => intro r; simp [litTake]
  | cons k ks ih => intro r; simp [litTake, ih]

theorem ciTake_sound (ks : List Char) :
    ∀ l r, ciTake ks l = some r →
      ∃ pre, l = pre ++ r ∧ pre.map Char.toLower = ks.map Char.toLower := by
  induction ks with
  | nil =>
    intro l r h
    refine ⟨[], ?_, rfl⟩
    simpa [ciTake] using h
  | cons k ks ih =>
    intro l r h
    cases l with
    | nil => simp [ciTake] at h
    | cons c cs =>
      by_cases hc : c.toLower = k.toLower
      · simp [ciTake, hc] at h
        obtain ⟨pre, hpre, hmap⟩ := ih cs r h
        exact ⟨c :: pre, by simp [hpre], by simp [hmap, hc]⟩
      · simp [ciTake, hc] at h

theorem scanFor_sound (f : List Char → Option (List Char)) :
    ∀ s x, scanFor f s = some x → ∃ pre t, s = pre ++ t ∧ f t = some x := by
  intro s
  induction s with
  | nil => intro x h; simp [scanFor] at h
  | cons c cs ih =>
    intro x h
    unfold scanFor at h
    cases hf : f (c :: cs) with
    | some y =>
      rw [hf] at h
      exact ⟨[], c :: cs, by simp, by simpa [hf] using h⟩
    | none =>
      rw [hf] at h
      obtain ⟨pre, t, hpt, hft⟩ := ih x h
      exact ⟨c :: pre, t, by simp [hpt], hft⟩

theorem scanFor_complete (f : List Char → Option (List Char)) (c : Char)
    (t : List Char) (x : List Char) (hx : f (c :: t) = some x) :
    ∀ pre, ∃ y, scanFor f (pre ++ c :: t) = some y := by
  intro pre
  induction pre with
  | nil => exact ⟨x, by simp [scanFor, hx]⟩
  | cons p pre ih =>
    obtain ⟨y, hy⟩ := ih
    cases hf : f (p :: (pre ++ c :: t)) with
    | some z => exact ⟨z, by simp [scanFor, hf]⟩
    | none => exact ⟨y, by simp [scanFor, hf, hy]⟩

theorem dimAtHead_sound (l ds : List Char) (h : dimAtHead l = some ds) :
    ∃ post, l = '(' :: (ds ++ ')' :: post) ∧ ds ≠ [] ∧
      ∀ c ∈ ds, c.isDigit = true := by
  cases l with
  | nil => simp [dimAtHead] at h
  | cons c rest =>
    have h' : (if c = '(' ∧ (rest.dropWhile Char.isDigit).head? = some ')' ∧
        rest.takeWhile Char.isDigit ≠ [] then
      some (rest.takeWhile Char.isDigit) else none) = some ds := h
    by_cases hcond : c = '(' ∧ (rest.dropWhile Char.isDigit).head? = some ')' ∧
        rest.takeWhile Char.isDigit ≠ []
    · rw [if_pos hcond] at h'
      obtain ⟨hc, hhead, hne⟩ := hcond
      have hds : rest.takeWhile Char.isDigit = ds := Option.some.inj h'
      cases hdrop : rest.dropWhile Char.isDigit with
      | nil => rw [hdrop] at hhead; simp at hhead
      | cons b postl =>
        rw [hdrop] at hhead
        have hb : b = ')' := by simpa using hhead
        refine ⟨postl, ?_, hds ▸ hne, ?_⟩
        · have hsplit := List.takeWhile_append_dropWhile Char.isDigit rest
          rw [hdrop, hds, hb] at hsplit
          rw [hc, ← hsplit]
        · intro c' hc'
          exact List.mem_takeWhile_imp (hds ▸ hc')
    · rw [if_neg hcond] at h'
      exact absurd h' (by simp)

theorem dimAtHead_complete (ds post : List Char) (hne : ds ≠ [])
    (hds : ∀ c ∈ ds, c.isDigit = true) :
    dimAtHead ('(' :: (ds ++ ')' :: post)) = some ds := by
  have hsplit := takeWhile_all_append Char.isDigit ds ')' post hds (by decide)
  show (if '(' = '(' ∧ ((ds ++ ')' :: post).dropWhile Char.isDigit).head? = some ')' ∧
      (ds ++ ')' :: post).takeWhile Char.isDigit ≠ [] then
    some ((ds ++ ')' :: post).takeWhile Char.isDigit) else none) = some ds
  rw [hsplit.1, hsplit.2]
  simp [hne]

theorem takeUntil_mem (q : Char) (l : List Char) (hq : q ∈ l) :
    ∃ rest, l = l.takeWhile (fun d => decide (d ≠ q)) ++ q :: rest := by
  induction l with
  | nil => cases hq
  | cons a l ih =>
    by_cases ha : a = q
    · subst ha
      exact ⟨l, by simp [List.takeWhile_cons]⟩
    · have hq' : q ∈ l := by
        cases hq with
        | head => exact absurd rfl ha
        | tail _ h => exact h
      obtain ⟨rest, hr⟩ := ih hq'
      refine ⟨rest, ?_⟩
      have htw : (a :: l).takeWhile (fun d => decide (d ≠ q)) =
          a :: l.takeWhile (fun d => decide (d ≠ q)) := by
        simp [List.takeWhile_cons, ha]
      rw [htw, List.cons_append, ← hr]

theorem commentAtHead_sound (l body : List Char) (h : commentAtHead l = some body) :
    ∃ kw ws q post, l = kw ++ (ws ++ (q :: (body ++ q :: post))) ∧
      kw.map Char.toLower = commentKW.map Char.toLower ∧
      ws ≠ [] ∧ (∀ c ∈ ws, isWS c = true) ∧ isQuote q = true := by
  unfold commentAtHead at h
  cases hci : ciTake commentKW l with
  | none => rw [hci] at h; simp at h
  | some r =>
    rw [hci] at h
    obtain ⟨kw, hkw, hkwmap⟩ := ciTake_sound commentKW l r hci
    cases r with
    | nil => simp at h
    | cons c cs =>
      have h1 : (if isWS c = true then
          (match cs.dropWhile isWS with
           | [] => none
           | q :: body0 =>
             if isQuote q = true ∧ q ∈ body0 then
               some (body0.takeWhile (fun d => decide (d ≠ q)))
             else none)
          else none) = some body := h
      by_cases hws : isWS c = true
      · rw [if_pos hws] at h1
        cases hdrop : cs.dropWhile isWS with
        | nil => rw [hdrop] at h1; simp at h1
        | cons q body0 =>
          rw [hdrop] at h1
          have h2 : (if isQuote q = true ∧ q ∈ body0 then
              some (body0.takeWhile (fun d => decide (d ≠ q)))
            else none) = some body := h1
          by_cases hq : isQuote q = true ∧ q ∈ body0
          · rw [if_pos hq] at h2
            have hbody : body0.takeWhile (fun d => decide (d ≠ q)) = body :=
              Option.some.inj h2
            obtain ⟨rest, hrest⟩ := takeUntil_mem q body0 hq.2
            refine ⟨kw, c :: cs.takeWhile isWS, q, rest, ?_, hkwmap, by simp, ?_, hq.1⟩
            · have hcs := List.takeWhile_append_dropWhile isWS cs
              rw [hdrop] at hcs
              rw [hkw, ← hbody, ← hrest]
              simp only [List.cons_append, List.append_assoc]
              rw [hcs]
            · intro c' hc'
              cases hc' with
              | head => exact hws
              | tail _ hmem => exact List.mem_takeWhile_imp hmem
          · rw [if_neg hq] at h2; simp at h2
      · rw [if_neg hws] at h1; simp at h1

theorem commentClause_length (s : List Char) (h : HasCommentClause s) :
    10 ≤ s.length := by
  obtain ⟨pre, kw, ws, q, body, post, hs, hmap, hws, _, _⟩ := h
  have hkwlen : kw.length = 7 := by
    have := congrArg List.length hmap
    simpa [commentKW] using this
  have hwslen : 1 ≤ ws.length := List.length_pos.2 hws
  have := congrArg List.length hs
  simp [List.length_append, hkwlen] at this
  omega

theorem indexedAtHead_sound (l m : List Char) (h : indexedAtHead l = some m) :
    ∃ w post, l = w ++ '(' :: (distanceLit ++ (m ++ ')' :: post)) ∧
      w ≠ [] ∧ (∀ c ∈ w, isWordChar c = true) ∧ m ≠ [] ∧
      ∀ c ∈ m, isWordChar c = true := by
  unfold indexedAtHead at h
  by_cases h1 : l.takeWhile isWordChar ≠ [] ∧ (l.dropWhile isWordChar).head? = some '('
  · rw [if_pos h1] at h
    obtain ⟨hw, hhead⟩ := h1
    cases hdrop : l.dropWhile isWordChar with
    | nil => rw [hdrop] at hhead; simp at hhead
    | cons b r1 =>
      rw [hdrop] at hhead h
      have hb : b = '(' := by simpa using hhead
      have h2 : (match litTake distanceLit r1 with
        | none => none
        | some r2 =>
          if r2.takeWhile isWordChar ≠ [] ∧
              (r2.dropWhile isWordChar).head? = some ')' then
            some (r2.takeWhile isWordChar)
          else none) = some m := h
      cases hlit : litTake distanceLit r1 with
      | none => rw [hlit] at h2; simp at h2
      | some r2 =>
        rw [hlit] at h2
        have hr1 : r1 = distanceLit ++ r2 := litTake_sound distanceLit r1 r2 hlit
        have h3 : (if r2.takeWhile isWordChar ≠ [] ∧
            (r2.dropWhile isWordChar).head? = some ')' then
          some (r2.takeWhile isWordChar) else none) = some m := h2
        by_cases hcnd : r2.takeWhile isWordChar ≠ [] ∧
            (r2.dropWhile isWordChar).head? = some ')'
        · rw [if_pos hcnd] at h3
          obtain ⟨hm, hhead2⟩ := hcnd
          have hmval : r2.takeWhile isWordChar = m := Option.some.inj h3
          cases hdrop2 : r2.dropWhile isWordChar with
          | nil => rw [hdrop2] at hhead2; simp at hhead2
          | cons b2 post =>
            rw [hdrop2] at hhead2
            have hb2 : b2 = ')' := by simpa using hhead2
            refine ⟨l.takeWhile isWordChar, post, ?_, hw, ?_, hmval ▸ hm, ?_⟩
            · have hr2 := List.takeWhile_append_dropWhile isWordChar r2
              rw [hdrop2, hmval, hb2] at hr2
              have hl := List.takeWhile_append_dropWhile isWordChar l
              rw [hdrop, hb, hr1, ← hr2] at hl
              exact hl.symm
            · intro c' hc'
              exact List.mem_takeWhile_imp hc'
            · intro c' hc'
              exact List.mem_takeWhile_imp (hmval ▸ hc')
        · rw [if_neg hcnd] at h3; simp at h3
  · rw [if_neg h1] at h; simp at h

theorem indexedAtHead_complete (w m post : List Char) (hw : w ≠ [])
    (hww : ∀ c ∈ w, isWordChar c = true) (hm : m ≠ [])
    (hmw : ∀ c ∈ m, isWordChar c = true) :
    indexedAtHead (w ++ '(' :: (distanceLit ++ (m ++ ')' :: post))) = some m := by
  have hsplit1 := takeWhile_all_append isWordChar w '('
    (distanceLit ++ (m ++ ')' :: post)) hww (by decide)
  have hsplit2 := takeWhile_all_append isWordChar m ')' post hmw (by decide)
  unfold indexedAtHead
  rw [hsplit1.1, hsplit1.2]
  rw [if_pos ⟨hw, rfl⟩]
  have e2 : litTake distanceLit
      (('(' :: (distanceLit ++ (m ++ ')' :: post))).tail) = some (m ++ ')' :: post) :=
    litTake_complete distanceLit (m ++ ')' :: post)
  rw [e2]
  show (if (m ++ ')' :: post).takeWhile isWordChar ≠ [] ∧
      ((m ++ ')' :: post).dropWhile isWordChar).head? = some ')' then
    some ((m ++ ')' :: post).takeWhile isWordChar) else none) = some m
  rw [hsplit2.1, hsplit2.2]
  rw [if_pos ⟨hm, rfl⟩]

theorem indexedOccur_length (body m : List Char) (h : IndexedOccur body m) :
    13 ≤ body.length := by
  obtain ⟨pre, w, post, hb, hw, _, hm, _⟩ := h
  have hwlen : 1 ≤ w.length := List.length_pos.2 hw
  have hmlen : 1 ≤ m.length := List.length_pos.2 hm
  have hdlen : distanceLit.length = 9 := by decide
  have := congrArg List.length hb
  simp [List.length_append, hdlen] at this
  omega

theorem bareAtHead_sound (l m : List Char) (h : bareAtHead l = some m) :
    ∃ rest, l = distanceLit ++ (m ++ rest) ∧ m ≠ [] ∧
      ∀ c ∈ m, isWordChar c = true := by
  unfold bareAtHead at h
  cases hlit : litTake distanceLit l with
  | none => rw [hlit] at h; simp at h
  | some r =>
    rw [hlit] at h
    have hr : l = distanceLit ++ r := litTake_sound distanceLit l r hlit
    have h2 : (if r.takeWhile isWordChar = [] then none
      else some (r.takeWhile isWordChar)) = some m := h
    by_cases hemp : r.takeWhile isWordChar = []
    · rw [if_pos hemp] at h2; simp at h2
    · rw [if_neg hemp] at h2
      have hmval : r.takeWhile isWordChar = m := Option.some.inj h2
      refine ⟨r.dropWhile isWordChar, ?_, hmval ▸ hemp, ?_⟩
      · rw [hr, ← hmval, List.takeWhile_append_dropWhile]
      · intro c' hc'
        exact List.mem_takeWhile_imp (hmval ▸ hc')

theorem bareAtHead_complete (m post : List Char) (hm : m ≠ [])
    (hmw : ∀ c ∈ m, isWordChar c = true) :
    ∃ y, bareAtHead (distanceLit ++ (m ++ post)) = some y := by
  have hne : (m ++ post).takeWhile isWordChar ≠ [] := by
    cases m with
    | nil => exact absurd rfl hm
    | cons c m' =>
      have hc : isWordChar c = true := hmw c (by simp)
      simp [List.takeWhile_cons, hc]
  refine ⟨(m ++ post).takeWhile isWordChar, ?_⟩
  unfold bareAtHead
  rw [litTake_complete]
  show (if (m ++ post).takeWhile isWordChar = [] then none
    else some ((m ++ post).takeWhile isWordChar)) =
      some ((m ++ post).takeWhile isWordChar)
  rw [if_neg hne]

/-! ## Helper lemmas for the retrieval module -/

theorem keys_dictInsert (d : List (String × Rat)) (k : String) (v : Rat) :
    (dictInsert d k v).map Prod.fst =
      if k ∈ d.map Prod.fst then d.map Prod.fst else d.map Prod.fst ++ [k] := by
  induction d with
  | nil => simp [dictInsert]
  | cons p rest ih =>
    obtain ⟨k', v'⟩ := p
    by_cases hk : k' = k
    · subst hk
      simp [dictInsert]
    · have hne : ¬ k = k' := fun h => hk h.symm
      by_cases hin : k ∈ rest.map Prod.fst
      · simp [dictInsert, hk, ih, hin, hne]
      · simp [dictInsert, hk, ih, hin, hne]

theorem nodup_keys_dictInsert (d : List (String × Rat)) (k : String) (v : Rat)
    (h : (d.map Prod.fst).Nodup) : ((dictInsert d k v).map Prod.fst).Nodup := by
  rw [keys_dictInsert]
  by_cases hin : k ∈ d.map Prod.fst
  · simpa [hin] using h
  · simp [hin, List.nodup_append, h]

theorem nodup_keys_buildDict (res : List QueryResult) :
    ((buildDict res).map Prod.fst).Nodup := by
  have main : ∀ (l : List QueryResult) (d : List (String × Rat)),
      (d.map Prod.fst).Nodup →
      ((l.foldl (fun d r => dictInsert d r.document r.distance) d).map Prod.fst).Nodup := by
    intro l
    induction l with
    | nil => intro d hd; simpa using hd
    | cons r rest ih =>
      intro d hd
      rw [List.foldl_cons]
      exact ih _ (nodup_keys_dictInsert d r.document r.distance hd)
  exact main res [] (by simp)

theorem lookupDoc_dictInsert (d : List (String × Rat)) (k a : String) (v : Rat) :
    lookupDoc a (dictInsert d k v) =
      if k = a then some v else lookupDoc a d := by
  induction d with
  | nil => simp [dictInsert, lookupDoc]
  | cons p rest ih =>
    obtain ⟨k', v'⟩ := p
    by_cases hk : k' = k
    · subst hk
      by_cases ha : k' = a
      · simp [dictInsert, lookupDoc, ha]
      · simp [dictInsert, lookupDoc, ha]
    · have hstep : dictInsert ((k', v') :: rest) k v =
          (k', v') :: dictInsert rest k v := by
        simp [dictInsert, hk]
      rw [hstep]
      by_cases ha : k' = a
      · have hka : ¬ k = a := fun h => hk (ha.trans h.symm)
        simp [lookupDoc, ha, hka]
      · simp [lookupDoc, ha, ih]

theorem lookupDoc_foldl (res : List QueryResult) :
    ∀ (d : List (String × Rat)) (a : String),
      lookupDoc a (res.foldl (fun d r => dictInsert d r.document r.distance) d) =
        match res.reverse.find? (fun r => decide (r.document = a)) with
        | some r => some r.distance
        | none => lookupDoc a d := by
  induction res with
  | nil => intro d a; simp
  | cons r rest ih =>
    intro d a
    rw [List.foldl_cons, ih, List.reverse_cons, List.find?_append]
    cases hfind : rest.reverse.find? (fun r => decide (r.document = a)) with
    | some r' => simp [Option.or]
    | none =>
      rw [Option.none_or, lookupDoc_dictInsert]
      by_cases hdoc : r.document = a
      · simp [List.find?_cons, hdoc]
      · simp [List.find?_cons, hdoc]

theorem lookupDoc_buildDict (res : List QueryResult) (a : String) :
    lookupDoc a (buildDict res) =
      Option.map (fun r => r.distance)
        (res.reverse.find? (fun r => decide (r.document = a))) := by
  rw [buildDict, lookupDoc_foldl]
  cases res.reverse.find? (fun r => decide (r.document = a)) with
  | some r => rfl
  | none => rfl

theorem nodup_forwardPassages (res : List QueryResult) :
    (forwardPassages res).Nodup := by
  have hperm : (sortedEntries res).Perm (buildDict res) :=
    List.perm_insertionSort scoreGe (buildDict res)
  have hmap := (hperm.map Prod.fst).symm
  have hnodup := nodup_keys_buildDict res
  have : ((sortedEntries res).map Prod.fst).Nodup := hmap.nodup hnodup
  simpa [forwardPassages] using this

/-! ## Model validation against the unit test of the repository
(tests/integrations/test_utils.py): all eight recorded cases. -/

theorem model_agrees_with_repo_tests :
    extract_info_from_column_definition
        ("VECTOR<FLOAT>(128) COMMENT \x27hnsw(distance=cosine)\x27".toList) =
      (some 128, some ("cosine".toList)) ∧
    extract_info_from_column_definition
        ("VECTOR<FLOAT>(256) COMMENT \x27some comment\x27".toList) =
      (some 256, none) ∧
    extract_info_from_column_definition
        ("VECTOR<FLOAT> COMMENT \x27another comment\x27".toList) = (none, none) ∧
    extract_info_from_column_definition ("VECTOR<FLOAT>".toList) = (none, none) ∧
    extract_info_from_column_definition
        ("VECTOR<FLOAT>(128) COMMENT \x22hnsw(distance=cosine)\x22".toList) =
      (some 128, some ("cosine".toList)) ∧
    extract_info_from_column_definition
        ("VECTOR<FLOAT> COMMENT \x27distance=l2\x27".toList) =
      (none, some ("l2".toList)) ∧
    extract_info_from_column_definition
        ("VECTOR<FLOAT>(128) COMMENT \x27test, hnsw(distance=l2)\x27".toList) =
      (some 128, some ("l2".toList)) := by
  decide

/-! ## Claim theorems -/

/-- C1: extract_info_from_column_definition is total over all string
inputs and never signals an error: its result is always the pair of the
two independent field extractions, so a failure of either search
degrades only its own field to none, and an input on which both
searches fail yields (none, none). -/
theorem extract_info_total_and_independent (s : List Char) :
    extract_info_from_column_definition s =
      (extractDimension s, extractDistance s) ∧
    (extractDimension s = none → extractDistance s = none →
      extract_info_from_column_definition s = (none, none)) := by
  constructor
  · rfl
  · intro h1 h2
    show (extractDimension s, extractDistance s) = (none, none)
    rw [h1, h2]

/-- C1 witness: the theorem applied at a concrete unrecognized input. -/
theorem extract_info_total_and_independent_witness :
    extract_info_from_column_definition sampleMalformed = (none, none) :=
  (extract_info_total_and_independent sampleMalformed).2 (by decide) (by decide)

/-- C2: the dimension field is none exactly when the input holds no
parenthesized digits-only group, and every returned dimension is the
value of a parenthesized digits-only group present in the input. -/
theorem extract_dimension_characterization (s : List Char) :
    ((extract_info_from_column_definition s).1 = none ↔ ¬ HasDigitGroup s) ∧
    ∀ n, (extract_info_from_column_definition s).1 = some n →
      DigitGroupValued s n := by
  have hfst : (extract_info_from_column_definition s).1 = extractDimension s := rfl
  constructor
  · constructor
    · intro hnone hhas
      obtain ⟨pre, ds, post, hs, hne, hds⟩ := hhas
      have hd := dimAtHead_complete ds post hne hds
      obtain ⟨y, hy⟩ := scanFor_complete dimAtHead '(' (ds ++ ')' :: post) ds hd pre
      rw [← hs] at hy
      have hsome : extractDimension s = some (digitsToNat y) := by
        unfold extractDimension
        rw [hy]
      rw [hfst, hsome] at hnone
      exact Option.noConfusion hnone
    · intro hnhas
      rw [hfst]
      unfold extractDimension
      cases hscan : scanFor dimAtHead s with
      | none => rfl
      | some ds =>
        obtain ⟨pre, t, hpt, hft⟩ := scanFor_sound dimAtHead s ds hscan
        obtain ⟨post, ht, hne, hds⟩ := dimAtHead_sound t ds hft
        exact absurd ⟨pre, ds, post, by rw [hpt, ht], hne, hds⟩ hnhas
  · intro n hn
    rw [hfst] at hn
    unfold extractDimension at hn
    cases hscan : scanFor dimAtHead s with
    | none =>
      rw [hscan] at hn
      exact absurd hn (by simp)
    | some ds =>
      rw [hscan] at hn
      have hn' : some (digitsToNat ds) = some n := hn
      have hval : digitsToNat ds = n := Option.some.inj hn'
      obtain ⟨pre, t, hpt, hft⟩ := scanFor_sound dimAtHead s ds hscan
      obtain ⟨post, ht, hne, hds⟩ := dimAtHead_sound t ds hft
      exact ⟨pre, ds, post, by rw [hpt, ht], hne, hds, hval⟩

/-- C2 witness: the theorem applied at an input holding the group (7). -/
theorem extract_dimension_characterization_witness :
    DigitGroupValued sampleDim 7 :=
  (extract_dimension_characterization sampleDim).2 7 (by decide)

/-- C3: an input with no COMMENT clause yields no distance metric,
whatever the dimension field holds. -/
theorem extract_distance_none_of_no_comment (s : List Char)
    (h : ¬ HasCommentClause s) :
    (extract_info_from_column_definition s).2 = none := by
  have hsnd : (extract_info_from_column_definition s).2 = extractDistance s := rfl
  rw [hsnd]
  unfold extractDistance
  cases hscan : scanFor commentAtHead s with
  | none => rfl
  | some body =>
    obtain ⟨pre, t, hpt, hft⟩ := scanFor_sound commentAtHead s body hscan
    obtain ⟨kw, ws, q, post, ht, hmap, hwsne, hwsall, hq⟩ :=
      commentAtHead_sound t body hft
    exact absurd
      ⟨pre, kw, ws, q, body, post, by rw [hpt, ht], hmap, hwsne, hwsall, hq⟩ h

/-- C3 witness: the theorem applied at a concrete comment-free input,
whose lack of a clause follows from a length bound. -/
theorem extract_distance_none_of_no_comment_witness :
    (extract_info_from_column_definition sampleNoComment).2 = none :=
  extract_distance_none_of_no_comment sampleNoComment
    (fun h => absurd (commentClause_length sampleNoComment h) (by decide))

/-! ## Glue lemmas shared by the metric claims -/

theorem scanIndexed_some_of_has (body : List Char) (h : HasIndexedForm body) :
    ∃ m, scanFor indexedAtHead body = some m := by
  obtain ⟨m0, pre, w, post, hb, hwne, hww, hmne, hmw⟩ := h
  have hat := indexedAtHead_complete w m0 post hwne hww hmne hmw
  cases w with
  | nil => exact absurd rfl hwne
  | cons c w' =>
    have hat' : indexedAtHead
        (c :: (w' ++ '(' :: (distanceLit ++ (m0 ++ ')' :: post)))) = some m0 := by
      simpa using hat
    obtain ⟨y, hy⟩ := scanFor_complete indexedAtHead c
      (w' ++ '(' :: (distanceLit ++ (m0 ++ ')' :: post))) m0 hat' pre
    refine ⟨y, ?_⟩
    rw [hb]
    simpa using hy

theorem scanIndexed_occur (body m : List Char)
    (h : scanFor indexedAtHead body = some m) : IndexedOccur body m := by
  obtain ⟨pre, t, hpt, hft⟩ := scanFor_sound indexedAtHead body m h
  obtain ⟨w2, post2, ht, h1, h2, h3, h4⟩ := indexedAtHead_sound t m hft
  exact ⟨pre, w2, post2, by rw [hpt, ht], h1, h2, h3, h4⟩

theorem scanIndexed_none_of_not_has (body : List Char)
    (h : ¬ HasIndexedForm body) : scanFor indexedAtHead body = none := by
  cases hscan : scanFor indexedAtHead body with
  | none => rfl
  | some m => exact absurd ⟨m, scanIndexed_occur body m hscan⟩ h

theorem scanBare_some_of_has (body : List Char) (h : HasBareForm body) :
    ∃ m, scanFor bareAtHead body = some m := by
  obtain ⟨m0, pre, post, hb, hmne, hmw⟩ := h
  obtain ⟨y, hy⟩ := bareAtHead_complete m0 post hmne hmw
  have hcons : distanceLit ++ (m0 ++ post) =
      'd' :: ("istance=".toList ++ (m0 ++ post)) := rfl
  rw [hcons] at hy
  obtain ⟨z, hz⟩ := scanFor_complete bareAtHead 'd'
    ("istance=".toList ++ (m0 ++ post)) y hy pre
  refine ⟨z, ?_⟩
  rw [hb, hcons]
  exact hz

theorem scanBare_occur (body m : List Char)
    (h : scanFor bareAtHead body = some m) : BareOccur body m := by
  obtain ⟨pre, t, hpt, hft⟩ := scanFor_sound bareAtHead body m h
  obtain ⟨rest, ht, h1, h2⟩ := bareAtHead_sound t m hft
  exact ⟨pre, rest, by rw [hpt, ht], h1, h2⟩

theorem extractDistance_eq_indexed (s body m : List Char)
    (hcomment : scanFor commentAtHead s = some body)
    (hidx : scanFor indexedAtHead body = some m) :
    (extract_info_from_column_definition s).2 = some m := by
  have hsnd : (extract_info_from_column_definition s).2 = extractDistance s := rfl
  rw [hsnd]
  unfold extractDistance
  rw [hcomment]
  show (match scanFor indexedAtHead body with
    | some m => some m
    | none => scanFor bareAtHead body) = some m
  rw [hidx]

theorem extractDistance_eq_bare (s body : List Char)
    (hcomment : scanFor commentAtHead s = some body)
    (hidx : scanFor indexedAtHead body = none) :
    (extract_info_from_column_definition s).2 = scanFor bareAtHead body := by
  have hsnd : (extract_info_from_column_definition s).2 = extractDistance s := rfl
  rw [hsnd]
  unfold extractDistance
  rw [hcomment]
  show (match scanFor indexedAtHead body with
    | some m => some m
    | none => scanFor bareAtHead body) = scanFor bareAtHead body
  rw [hidx]

/-- C4: when the comment body of the input holds an index-specification
fragment, the returned metric is the metric of such a fragment of that
body, whatever surrounding text the body holds; the quote style of the
comment is immaterial since either quote yields the body. -/
theorem extract_distance_indexed_form (s body : List Char)
    (hcomment : scanFor commentAtHead s = some body)
    (hform : HasIndexedForm body) :
    ∃ m, (extract_info_from_column_definition s).2 = some m ∧
      IndexedOccur body m := by
  obtain ⟨m, hm⟩ := scanIndexed_some_of_has body hform
  exact ⟨m, extractDistance_eq_indexed s body m hcomment hm,
    scanIndexed_occur body m hm⟩

/-- C4 witness: the theorem applied at a double-quoted comment input
whose body embeds hnsw(distance=cosine). -/
theorem extract_distance_indexed_form_witness :
    ∃ m, (extract_info_from_column_definition sampleIndexed).2 = some m ∧
      IndexedOccur bodyIndexed m :=
  extract_distance_indexed_form sampleIndexed bodyIndexed (by decide)
    ⟨"cosine".toList, [], "hnsw".toList, [], by decide, by decide, by decide,
      by decide, by decide⟩

/-- C5: when the comment body holds the bare fragment distance=metric
and no index-specification fragment at all, the returned metric is the
metric of a bare fragment of the body. -/
theorem extract_distance_bare_form (s body : List Char)
    (hcomment : scanFor commentAtHead s = some body)
    (hnoidx : ¬ HasIndexedForm body)
    (hbare : HasBareForm body) :
    ∃ m, (extract_info_from_column_definition s).2 = some m ∧
      BareOccur body m := by
  have hidxnone := scanIndexed_none_of_not_has body hnoidx
  obtain ⟨m, hm⟩ := scanBare_some_of_has body hbare
  refine ⟨m, ?_, scanBare_occur body m hm⟩
  rw [extractDistance_eq_bare s body hcomment hidxnone, hm]

/-- C5 witness: the theorem applied at a comment whose body is exactly
distance=l2; absence of an index fragment follows from a length bound. -/
theorem extract_distance_bare_form_witness :
    ∃ m, (extract_info_from_column_definition sampleBare).2 = some m ∧
      BareOccur bodyBare m :=
  extract_distance_bare_form sampleBare bodyBare (by decide)
    (fun h => Exists.elim h
      (fun m hm => absurd (indexedOccur_length bodyBare m hm) (by decide)))
    ⟨"l2".toList, [], [], by decide, by decide, by decide⟩

/-- C6: precedence of the two metric forms: when the body admits both
an index-specification fragment and a bare fragment, the result comes
from an index-specification fragment; the bare form only determines the
result when no index-specification fragment is present. -/
theorem extract_distance_precedence (s body : List Char)
    (hcomment : scanFor commentAtHead s = some body) :
    (HasIndexedForm body → HasBareForm body →
      ∃ m, (extract_info_from_column_definition s).2 = some m ∧
        IndexedOccur body m) ∧
    (¬ HasIndexedForm body →
      ∀ m, (extract_info_from_column_definition s).2 = some m →
        BareOccur body m) := by
  constructor
  · intro hidx _
    obtain ⟨m, hm⟩ := scanIndexed_some_of_has body hidx
    exact ⟨m, extractDistance_eq_indexed s body m hcomment hm,
      scanIndexed_occur body m hm⟩
  · intro hnoidx m hm
    have hidxnone := scanIndexed_none_of_not_has body hnoidx
    have hbare := extractDistance_eq_bare s body hcomment hidxnone
    rw [hbare] at hm
    exact scanBare_occur body m hm

/-- C6 witness: both branches of the theorem applied at concrete
inputs: a body holding both forms takes the indexed metric, and a body
with no index wrapper falls back to the bare metric. -/
theorem extract_distance_precedence_witness :
    (∃ m, (extract_info_from_column_definition sampleBoth).2 = some m ∧
      IndexedOccur bodyBoth m) ∧
    BareOccur bodyBare ("l2".toList) :=
  ⟨(extract_distance_precedence sampleBoth bodyBoth (by decide)).1
      ⟨"l2".toList, [], "ab".toList, [], by decide, by decide, by decide,
        by decide, by decide⟩
      ⟨"l2".toList, "ab(".toList, ")".toList, by decide, by decide, by decide⟩,
    (extract_distance_precedence sampleBare bodyBare (by decide)).2
      (fun h => Exists.elim h
        (fun m hm => absurd (indexedOccur_length bodyBare m hm) (by decide)))
      ("l2".toList) (by decide)⟩

/-- C7: determinism and purity: the parse result is a function of the
input string alone; in this embedding the parser is a pure total
function, so two calls on equal inputs give identical results. -/
theorem extract_info_deterministic (s t : List Char) (h : s = t) :
    extract_info_from_column_definition s =
      extract_info_from_column_definition t :=
  congrArg extract_info_from_column_definition h

/-- C7 witness: the theorem applied at a concrete repeated input. -/
theorem extract_info_deterministic_witness :
    extract_info_from_column_definition samplePlain =
      extract_info_from_column_definition samplePlain :=
  extract_info_deterministic samplePlain samplePlain rfl

/-- C8: TidbRM.forward re-sorts the client query results before
returning them: the sorted item list is pairwise descending in score
(scoreGe holds along it, largest distance first), the returned passages
are exactly the documents of that list in that order, and sorting only
rearranges the dict items. -/
theorem forward_sorted_descending (rm : TidbRM)
    (clientQuery : Int → List QueryResult) (k : Option Int) :
    List.Pairwise scoreGe (sortedEntries (clientQuery (resolveK k rm.top_k))) ∧
    rm.forward clientQuery k =
      (sortedEntries (clientQuery (resolveK k rm.top_k))).map (fun p => p.1) ∧
    (sortedEntries (clientQuery (resolveK k rm.top_k))).Perm
      (buildDict (clientQuery (resolveK k rm.top_k))) :=
  ⟨List.sorted_insertionSort scoreGe _, rfl, List.perm_insertionSort scoreGe _⟩

/-- C9: TidbRM.forward returns each distinct document text at most
once, and the dict backing the ranking stores, for each document, the
distance of the last client result carrying that document. -/
theorem forward_nodup_last_score (rm : TidbRM)
    (clientQuery : Int → List QueryResult) (k : Option Int) :
    (rm.forward clientQuery k).Nodup ∧
    ∀ key, lookupDoc key (buildDict (clientQuery (resolveK k rm.top_k))) =
      Option.map (fun r => r.distance)
        ((clientQuery (resolveK k rm.top_k)).reverse.find?
          (fun r => decide (r.document = key))) :=
  ⟨nodup_forwardPassages (clientQuery (resolveK k rm.top_k)),
   fun key => lookupDoc_buildDict (clientQuery (resolveK k rm.top_k)) key⟩

/-- C10: a k argument of 0 is treated as unset by the fallback
k or self.top_k: the client query is issued with the stored top_k,
whose constructor default is 3, and no k argument can make the resolved
k zero unless the stored top_k is itself zero, so a caller cannot
request zero passages through the k parameter. -/
theorem forward_zero_k_fallback (rm : TidbRM)
    (clientQuery : Int → List QueryResult) :
    rm.forward clientQuery (some 0) = forwardPassages (clientQuery rm.top_k) ∧
    resolveK (some 0) rm.top_k = rm.top_k ∧
    TidbRM.mkDefault.top_k = 3 ∧
    ∀ k, resolveK k rm.top_k = 0 → rm.top_k = 0 := by
  refine ⟨rfl, rfl, rfl, ?_⟩
  intro k hk
  cases k with
  | none => exact hk
  | some v =>
    by_cases hv : v = 0
    · simpa [resolveK, hv] using hk
    · simp [resolveK, hv] at hk

/-- C10 witness: the theorem applied at a concrete module whose stored
top_k is zero, with the empty client. -/
theorem forward_zero_k_fallback_witness : (⟨0⟩ : TidbRM).top_k = 0 :=
  (forward_zero_k_fallback ⟨0⟩ (fun _ => [])).2.2.2 none rfl
